import Mathlib

/-
Verification development for the camera-analytics tracking/analytics core.

Shallow embedding of `src/camera_analytics/core/tracking_engine.py` and
`src/camera_analytics/core/analytics_engine.py`:

* Python ints become `Int`/`Nat`; Python floats (IoU values, thresholds)
  become exact rationals `ℚ`.
* The wall-clock fields (`first_seen`, `last_seen`, event `timestamp`, and
  the timestamp-derived component of `event_id`) are not modelled: no claim
  constrains them.
* Python dicts keyed by freshly generated ids are modelled as
  insertion-ordered lists; deletion/filtering preserves order exactly as a
  dict comprehension does.
* Mutation of `self` is modelled by returning the new engine state together
  with the method's return value.
-/

-- The arithmetic on ℚ is `@[irreducible]` in the library, which blocks
-- kernel evaluation of concrete engine runs; restore the default
-- reducibility so `decide` can evaluate them.
attribute [local semireducible] Rat.add Rat.sub Rat.mul Rat.inv

namespace CameraAnalytics

/-- A bounding box `(x1, y1, x2, y2)` in pixels, as in `Detection.bbox`. -/
abbrev BBox := Int × Int × Int × Int

/-- `Detection` from `detection_engine.py` (timestamps are not part of it). -/
structure Detection where
  class_name : String
  class_id : Int
  confidence : ℚ
  bbox : BBox
  track_id : Option Nat := none
  deriving DecidableEq, Repr

def defaultDetection : Detection :=
  { class_name := "", class_id := 0, confidence := 0, bbox := (0, 0, 0, 0) }

/-- `Detection.center`: `((x1+x2)//2, (y1+y2)//2)` with Python floor division. -/
def Detection.center (d : Detection) : Int × Int :=
  (Int.fdiv (d.bbox.1 + d.bbox.2.2.1) 2, Int.fdiv (d.bbox.2.1 + d.bbox.2.2.2) 2)

/-- The intersection term of `_calculate_iou`: width and height clamped to ≥ 0. -/
def interArea (bbox1 bbox2 : BBox) : Int :=
  let (x1_1, y1_1, x2_1, y2_1) := bbox1
  let (x1_2, y1_2, x2_2, y2_2) := bbox2
  max 0 (min x2_1 x2_2 - max x1_1 x1_2) * max 0 (min y2_1 y2_2 - max y1_1 y1_2)

/-- The union term of `_calculate_iou`: `area1 + area2 - inter_area`. -/
def unionArea (bbox1 bbox2 : BBox) : Int :=
  let (x1_1, y1_1, x2_1, y2_1) := bbox1
  let (x1_2, y1_2, x2_2, y2_2) := bbox2
  (x2_1 - x1_1) * (y2_1 - y1_1) + (x2_2 - x1_2) * (y2_2 - y1_2) - interArea bbox1 bbox2

/-- `_calculate_iou` from `tracking_engine.py` (float division modelled in ℚ). -/
def _calculate_iou (bbox1 bbox2 : BBox) : ℚ :=
  if unionArea bbox1 bbox2 = 0 then 0
  else (interArea bbox1 bbox2 : ℚ) / (unionArea bbox1 bbox2 : ℚ)

/-- `Track` from `tracking_engine.py` (minus the two wall-clock timestamps). -/
structure Track where
  track_id : Nat
  class_name : String
  detections : List Detection := []
  active : Bool := true
  age : Nat := 0
  hits : Nat := 0
  deriving DecidableEq, Repr

def defaultTrack : Track := { track_id := 0, class_name := "" }

/-- `Track.update`: stamps the detection's `track_id` and appends it. -/
def Track.updateDet (t : Track) (detection : Detection) : Track :=
  { t with detections := t.detections ++ [{ detection with track_id := some t.track_id }] }

/-- `Track.get_current_bbox`: last detection's bbox, `none` when empty. -/
def Track.get_current_bbox (t : Track) : Option BBox :=
  t.detections.getLast?.map fun d => d.bbox

/-- `Line` from `analytics_engine.py`. -/
structure Line where
  id : String
  x1 : Int
  y1 : Int
  x2 : Int
  y2 : Int
  deriving DecidableEq, Repr

/-- `LineCrossingEvent` (minus `timestamp`; the timestamp-derived suffix of
`event_id` is likewise dropped). -/
structure LineCrossingEvent where
  event_id : String
  track_id : Nat
  line_id : String
  class_name : String
  deriving DecidableEq, Repr

/-- The nested `orientation` helper of `_check_line_crossing`:
0 = collinear, 1 = clockwise, 2 = counterclockwise. -/
def orientation (p q r : Int × Int) : Nat :=
  let val := (q.2 - p.2) * (r.1 - q.1) - (q.1 - p.1) * (r.2 - q.2)
  if val = 0 then 0 else if 0 < val then 1 else 2

/-- `AnalyticsEngine._check_line_crossing`: the general-position test only. -/
def _check_line_crossing (p1 p2 : Int × Int) (line : Line) : Bool :=
  let l_p1 := (line.x1, line.y1)
  let l_p2 := (line.x2, line.y2)
  let o1 := orientation p1 p2 l_p1
  let o2 := orientation p1 p2 l_p2
  let o3 := orientation l_p1 l_p2 p1
  let o4 := orientation l_p1 l_p2 p2
  o1 != o2 && o3 != o4

/-- `AnalyticsEngine` state: `_lines` (insertion-ordered, unique ids) and
`latest_events`. (`_track_history` is initialised but never used by any
method in the source, so it is omitted.) -/
structure AnalyticsEngine where
  lines : List Line := []
  latest_events : List LineCrossingEvent := []
  deriving DecidableEq, Repr

/-- `AnalyticsEngine.add_line`: raising `ValueError` is modelled as `.error`. -/
def AnalyticsEngine.add_line (a : AnalyticsEngine) (line : Line) :
    Except String AnalyticsEngine :=
  if a.lines.any fun l => l.id == line.id then
    Except.error ("Line with ID " ++ line.id ++ " already exists.")
  else
    Except.ok { a with lines := a.lines ++ [line] }

/-- `AnalyticsEngine.remove_line`: absent id is a no-op; present id deletes
that dict entry (order of the others preserved). -/
def AnalyticsEngine.remove_line (a : AnalyticsEngine) (line_id : String) :
    AnalyticsEngine :=
  if a.lines.any fun l => l.id == line_id then
    { a with lines := a.lines.filter fun l => l.id != line_id }
  else a

/-- The event-collection loop of `AnalyticsEngine.update`: for every track
with ≥ 2 detections, test the segment between its last two detection centers
against every configured line, one event per true test. -/
def generatedEvents (lines : List Line) (tracks : List Track) :
    List LineCrossingEvent :=
  tracks.flatMap fun track =>
    if track.detections.length < 2 then []
    else
      let prev_point := (track.detections.getD (track.detections.length - 2)
        defaultDetection).center
      let curr_point := (track.detections.getD (track.detections.length - 1)
        defaultDetection).center
      (lines.filter fun line => _check_line_crossing prev_point curr_point line).map
        fun line =>
          { event_id := "lc-" ++ toString track.track_id ++ "-" ++ line.id
            track_id := track.track_id
            line_id := line.id
            class_name := track.class_name }

/-- `AnalyticsEngine.update`: generate events, prepend them to the retained
list (only when non-empty, as in the source), truncate to 100, and return
only this call's events. -/
def AnalyticsEngine.update (a : AnalyticsEngine) (tracks : List Track) :
    AnalyticsEngine × List LineCrossingEvent :=
  let events := generatedEvents a.lines tracks
  let a' := if events.isEmpty then a
    else { a with latest_events := (events ++ a.latest_events).take 100 }
  (a', events)

/-- `AnalyticsEngine.get_latest_events`. -/
def AnalyticsEngine.get_latest_events (a : AnalyticsEngine) (limit : Nat := 100) :
    List LineCrossingEvent :=
  a.latest_events.take limit

/-! ## The optimal-assignment solver

`scipy.optimize.linear_sum_assignment(C)` returns a one-to-one assignment of
rows to columns of the rectangular cost matrix `C` that assigns every row
when `rows ≤ cols` (every column otherwise) and minimises the total cost.
We model it by exhaustive minimisation over all such assignments; which
optimum is returned on ties is unspecified in scipy, and our model fixes one.
-/

/-- All duplicate-free lists of length `k` drawn from `cols`:
the candidate column choices for rows `0..k-1`. -/
def injections : Nat → List Nat → List (List Nat)
  | 0, _ => [[]]
  | k + 1, cols =>
      cols.flatMap fun c => (injections k (cols.erase c)).map fun l => c :: l

/-- All complete one-to-one assignments for an `n × m` cost matrix: every row
paired when `n ≤ m`, every column paired otherwise. -/
def allMatchings (n m : Nat) : List (List (Nat × Nat)) :=
  if n ≤ m then
    (injections n (List.range m)).map fun l => (List.range n).zip l
  else
    (injections m (List.range n)).map fun l => l.zip (List.range m)

/-- Total cost of an assignment under cost function `C`. -/
def pairCost (C : Nat → Nat → ℚ) (A : List (Nat × Nat)) : ℚ :=
  (A.map fun p => C p.1 p.2).sum

/-- Model of `scipy.optimize.linear_sum_assignment`: a minimum-total-cost
complete one-to-one assignment of the `n × m` matrix `C`. -/
def linear_sum_assignment (C : Nat → Nat → ℚ) (n m : Nat) : List (Nat × Nat) :=
  match allMatchings n m with
  | [] => []
  | A :: rest => rest.foldl (fun best B => if pairCost C B < pairCost C best then B else best) A

/-! ## The tracking engine -/

/-- `TrackingEngine` state: the live `track_id -> Track` dict (modelled as an
insertion-ordered list; keys always equal `track_id` and are freshly
generated) plus `_next_track_id` and the constructor parameters. -/
structure TrackingEngine where
  max_age : Nat := 30
  min_hits : Nat := 3
  iou_threshold : ℚ := 3 / 10
  tracks : List Track := []
  next_track_id : Nat := 1
  deriving DecidableEq, Repr

/-- `TrackingEngine.__init__`. -/
def TrackingEngine.init (max_age : Nat := 30) (min_hits : Nat := 3)
    (iou_threshold : ℚ := 3 / 10) : TrackingEngine :=
  { max_age := max_age, min_hits := min_hits, iou_threshold := iou_threshold,
    tracks := [], next_track_id := 1 }

/-- `TrackingEngine.get_active_tracks`. -/
def TrackingEngine.get_active_tracks (e : TrackingEngine) : List Track :=
  e.tracks.filter fun t => t.active

/-- The fresh track built by `TrackingEngine._create_track`: default fields
(`hits = 0`, `age = 0`, `active`), then `track.update(detection)`. -/
def newTrackFor (nid : Nat) (detection : Detection) : Track :=
  Track.updateDet { track_id := nid, class_name := detection.class_name } detection

/-- `TrackingEngine._create_track`: append the fresh track under the fresh
key and increment `_next_track_id`. -/
def TrackingEngine._create_track (e : TrackingEngine) (detection : Detection) :
    TrackingEngine :=
  { e with tracks := e.tracks ++ [newTrackFor e.next_track_id detection],
           next_track_id := e.next_track_id + 1 }

/-- Step 1/2 of `update`: every track in the dict gets `age += 1`. -/
def agedTracks (e : TrackingEngine) : List Track :=
  e.tracks.map fun t => { t with age := t.age + 1 }

/-- `active_tracks = self.get_active_tracks()` as evaluated inside `update`,
i.e. after the aging pass. -/
def activeAged (e : TrackingEngine) : List Track :=
  (agedTracks e).filter fun t => t.active

/-- The `iou_matrix` of `update`: starts as `np.zeros((n, m))`, and cell
`(t, d)` is filled with the IoU of track `t`'s current bbox and detection
`d`'s bbox whenever the track has a current bbox. -/
def iouMatrix (active : List Track) (dets : List Detection) (t d : Nat) : ℚ :=
  if t < active.length ∧ d < dets.length then
    match (active.getD t defaultTrack).get_current_bbox with
    | some bb => _calculate_iou bb (dets.getD d defaultDetection).bbox
    | none => 0
  else 0

/-- The cost matrix `update` actually builds for the current call. -/
def engineMatrix (e : TrackingEngine) (dets : List Detection) : Nat → Nat → ℚ :=
  iouMatrix (activeAged e) dets

/-- Step 3 of `update`: `linear_sum_assignment(-iou_matrix)`. -/
def engineAssignment (e : TrackingEngine) (dets : List Detection) :
    List (Nat × Nat) :=
  linear_sum_assignment (fun t d => -(engineMatrix e dets t d))
    (activeAged e).length dets.length

/-- Step 4's threshold filter: the proposed pairs whose IoU reaches
`iou_threshold` (the pairs actually matched). -/
def acceptedPairs (e : TrackingEngine) (dets : List Detection) :
    List (Nat × Nat) :=
  (engineAssignment e dets).filter fun p =>
    e.iou_threshold ≤ engineMatrix e dets p.1 p.2

/-- What happens to the active track at index `t` in steps 4/6 of `update`:
matched tracks absorb their detection and reset `age`, increment `hits`;
unmatched tracks keep their incremented age and are marked inactive when
`age > max_age`. -/
def processOne (e : TrackingEngine) (dets : List Detection) (t : Nat) : Track :=
  let track := (activeAged e).getD t defaultTrack
  match (acceptedPairs e dets).find? (fun p => p.1 == t) with
  | some p =>
      let track' := track.updateDet (dets.getD p.2 defaultDetection)
      { track' with age := 0, hits := track'.hits + 1 }
  | none => if e.max_age < track.age then { track with active := false } else track

/-- Steps 4/6 applied to the whole active-track list (positionally: Python
mutates the aliased `active_tracks[t]` objects in place). -/
def processedTracks (e : TrackingEngine) (dets : List Detection) : List Track :=
  (List.range (activeAged e).length).map fun t => processOne e dets t

/-- Step 5's `unmatched_det_indices`, iterated in ascending order (CPython's
iteration order for a set of small ints). -/
def unmatchedDets (e : TrackingEngine) (dets : List Detection) : List Nat :=
  (List.range dets.length).filter fun d =>
    !(((acceptedPairs e dets).map Prod.snd).contains d)

/-- `TrackingEngine.update`.

Faithfulness notes for the `else` branch: in the source all mutation happens
through the aliased `active_tracks` list, and the final dict comprehension
drops every inactive track.  Tracks that were already inactive in the dict
are untouched by steps 2-6 and dropped by the purge, so replacing the dict
contents by the processed active list before appending the new tracks and
purging yields exactly the same final dict (in the same order). -/
def TrackingEngine.update (e : TrackingEngine) (dets : List Detection) :
    TrackingEngine × List Track :=
  let e1 :=
    if e.tracks.isEmpty then
      -- No existing tracks: create new ones for all detections
      dets.foldl TrackingEngine._create_track e
    else
      let e' := { e with tracks := processedTracks e dets }
      ((unmatchedDets e dets).map fun d => dets.getD d defaultDetection).foldl
        TrackingEngine._create_track e'
  -- `self._tracks = {tid: t for tid, t in self._tracks.items() if t.active}`
  let e2 := { e1 with tracks := e1.tracks.filter fun t => t.active }
  (e2, e2.tracks.filter fun t => e2.min_hits ≤ t.hits)

/-- Characterisation device for the `_create_track` loops: the batch of fresh
tracks created for a run of detections starting at id `nid`. -/
def mkNewTracks (nid : Nat) : List Detection → List Track
  | [] => []
  | d :: ds => newTrackFor nid d :: mkNewTracks (nid + 1) ds

/-! ## Concrete inputs used by the example-based claims -/

/-- The detection used by the confirmation-threshold scenario. -/
def carDetection : Detection :=
  { class_name := "car", class_id := 2, confidence := 9 / 10, bbox := (10, 10, 50, 50) }

/-- Vertical line from (100,0) to (100,200). -/
def sampleLine : Line := { id := "L1", x1 := 100, y1 := 0, x2 := 100, y2 := 200 }

/-- A track whose last two detection centers are (70,70) and (130,70). -/
def trackAcross : Track :=
  { track_id := 5, class_name := "person",
    detections := [{ defaultDetection with bbox := (60, 60, 80, 80) },
                   { defaultDetection with bbox := (120, 60, 140, 80) }] }

/-- A track whose last two detection centers are (70,70) and (80,70). -/
def trackShort : Track :=
  { track_id := 6, class_name := "person",
    detections := [{ defaultDetection with bbox := (60, 60, 80, 80) },
                   { defaultDetection with bbox := (70, 60, 90, 80) }] }

/-- A track with a single detection. -/
def trackOneDet : Track :=
  { track_id := 7, class_name := "person",
    detections := [{ defaultDetection with bbox := (60, 60, 80, 80) }] }

/-- Vertical line from (1,0) to (1,2); its endpoint (1,0) lies on the
segment from (0,0) to (2,0), a touching configuration. -/
def touchLine : Line := { id := "T", x1 := 1, y1 := 0, x2 := 1, y2 := 2 }

/-- A track whose last two detection centers are (0,0) and (2,0): its
movement segment touches `touchLine` at the line's endpoint (1,0). -/
def trackTouch : Track :=
  { track_id := 8, class_name := "person",
    detections := [{ defaultDetection with bbox := (-1, -1, 1, 1) },
                   { defaultDetection with bbox := (1, -1, 3, 1) }] }

/-! # Theorems -/

/-- C6: the IoU function computes intersection over union with the
intersection clamped to ≥ 0, returns 0 when the union area is 0, and
satisfies the three concrete identities of the spec. -/
theorem c6_iou_correctness :
    _calculate_iou (0, 0, 10, 10) (5, 5, 15, 15) = 25 / 175 ∧
    _calculate_iou (0, 0, 10, 10) (20, 20, 30, 30) = 0 ∧
    (∀ bbox1 bbox2 : BBox, 0 ≤ interArea bbox1 bbox2) ∧
    (∀ bbox1 bbox2 : BBox, unionArea bbox1 bbox2 = 0 → _calculate_iou bbox1 bbox2 = 0) ∧
    (∀ b : BBox, b.1 < b.2.2.1 → b.2.1 < b.2.2.2 → _calculate_iou b b = 1) := by
  refine ⟨by decide, by decide, ?_, ?_, ?_⟩
  · rintro ⟨x11, y11, x21, y21⟩ ⟨x12, y12, x22, y22⟩
    exact mul_nonneg (le_max_left _ _) (le_max_left _ _)
  · intro bbox1 bbox2 h
    simp [_calculate_iou, h]
  · rintro ⟨x1, y1, x2, y2⟩ hx hy
    simp only at hx hy
    have hx' : (0 : Int) ≤ x2 - x1 := by omega
    have hy' : (0 : Int) ≤ y2 - y1 := by omega
    have hA : interArea (x1, y1, x2, y2) (x1, y1, x2, y2) = (x2 - x1) * (y2 - y1) := by
      simp [interArea, max_eq_right hx', max_eq_right hy']
    have hU : unionArea (x1, y1, x2, y2) (x1, y1, x2, y2) = (x2 - x1) * (y2 - y1) := by
      simp only [unionArea, hA]; ring
    have hpos : (0 : Int) < (x2 - x1) * (y2 - y1) := by
      apply mul_pos <;> omega
    rw [_calculate_iou, hU, hA, if_neg hpos.ne']
    rw [div_self]
    exact_mod_cast hpos.ne'

/-- Witness for C6 at the concrete valid bbox (2,3,9,12). -/
theorem c6_iou_correctness_witness :
    (2 : Int) < 9 ∧ (3 : Int) < 12 ∧
      _calculate_iou (2, 3, 9, 12) (2, 3, 9, 12) = 1 :=
  ⟨by decide, by decide,
    c6_iou_correctness.2.2.2.2 (2, 3, 9, 12) (by decide) (by decide)⟩

/-- Splitting off the unique entry with a given id from a duplicate-free line
list: what `del self._lines[line_id]` removes. -/
theorem remove_entry_decomp (lines : List Line) (lid : String)
    (hnd : (lines.map Line.id).Nodup)
    (h : (lines.any fun l => l.id == lid) = true) :
    ∃ pre mid post, lines = pre ++ mid :: post ∧ mid.id = lid ∧
      lines.filter (fun l => l.id != lid) = pre ++ post := by
  induction lines with
  | nil => simp at h
  | cons l rest ih =>
    simp only [List.map_cons, List.nodup_cons] at hnd
    by_cases hl : l.id = lid
    · refine ⟨[], l, rest, rfl, hl, ?_⟩
      have hrest : ∀ x ∈ rest, (x.id != lid) = true := by
        intro x hx
        have : x.id ≠ lid := by
          intro hxid
          have hxl : x.id = l.id := by rw [hxid, hl]
          exact hnd.1 (hxl ▸ List.mem_map_of_mem Line.id hx)
        simpa [bne_iff_ne] using this
      simp only [List.filter_cons, hl, bne_self_eq_false, List.nil_append]
      exact List.filter_eq_self.2 hrest
    · have h' : (rest.any fun x => x.id == lid) = true := by
        rcases List.any_eq_true.1 h with ⟨x, hx, hxl⟩
        rcases List.mem_cons.1 hx with rfl | hx'
        · exact absurd (by simpa using hxl) hl
        · exact List.any_eq_true.2 ⟨x, hx', hxl⟩
      obtain ⟨pre, mid, post, hdec, hmid, hfil⟩ := ih hnd.2 h'
      refine ⟨l :: pre, mid, post, by simp [hdec], hmid, ?_⟩
      have hlb : (l.id != lid) = true := by simpa [bne_iff_ne] using hl
      simp [List.filter_cons, hlb, hfil]

/-- C7: `add_line` signals an error on a duplicate id and leaves the mapping
unmodified; `remove_line` of an absent id is a no-op that does not raise, and
of a present id deletes exactly that entry. -/
theorem c7_line_management (a : AnalyticsEngine) (line : Line) (lid : String) :
    ((a.lines.any fun l => l.id == line.id) = true →
      a.add_line line =
        Except.error ("Line with ID " ++ line.id ++ " already exists.")) ∧
    ((a.lines.any fun l => l.id == line.id) = false →
      a.add_line line = Except.ok { a with lines := a.lines ++ [line] }) ∧
    ((a.lines.any fun l => l.id == lid) = false → a.remove_line lid = a) ∧
    ((a.lines.map Line.id).Nodup → (a.lines.any fun l => l.id == lid) = true →
      ∃ pre mid post, a.lines = pre ++ mid :: post ∧ mid.id = lid ∧
        (a.remove_line lid).lines = pre ++ post) := by
  refine ⟨?_, ?_, ?_, ?_⟩
  · intro h; simp [AnalyticsEngine.add_line, h]
  · intro h; simp [AnalyticsEngine.add_line, h]
  · intro h; simp [AnalyticsEngine.remove_line, h]
  · intro hnd h
    obtain ⟨pre, mid, post, hdec, hmid, hfil⟩ := remove_entry_decomp a.lines lid hnd h
    exact ⟨pre, mid, post, hdec, hmid, by simp [AnalyticsEngine.remove_line, h, hfil]⟩

/-- Witness for C7 on a concrete two-line engine. -/
theorem c7_line_management_witness :
    ((([{ id := "A", x1 := 0, y1 := 0, x2 := 1, y2 := 1 },
        { id := "B", x1 := 2, y1 := 2, x2 := 3, y2 := 3 }] :
          List Line).any fun l => l.id == "B") = true) ∧
    ∃ pre mid post,
      ({ lines := [{ id := "A", x1 := 0, y1 := 0, x2 := 1, y2 := 1 },
                   { id := "B", x1 := 2, y1 := 2, x2 := 3, y2 := 3 }] } :
        AnalyticsEngine).lines = pre ++ mid :: post ∧ mid.id = "B" ∧
      (({ lines := [{ id := "A", x1 := 0, y1 := 0, x2 := 1, y2 := 1 },
                    { id := "B", x1 := 2, y1 := 2, x2 := 3, y2 := 3 }] } :
        AnalyticsEngine).remove_line "B").lines = pre ++ post :=
  ⟨by decide,
    (c7_line_management
      { lines := [{ id := "A", x1 := 0, y1 := 0, x2 := 1, y2 := 1 },
                  { id := "B", x1 := 2, y1 := 2, x2 := 3, y2 := 3 }] }
      { id := "A", x1 := 0, y1 := 0, x2 := 1, y2 := 1 } "B").2.2.2
      (by decide) (by decide)⟩

/-- C8: after every `update` call (starting from a retained list within the
bound), the retained event list holds at most 100 events, equals the new
events prepended to the old list truncated to 100, and the call returns
exactly the events generated in that call. -/
theorem c8_event_retention (a : AnalyticsEngine) (tracks : List Track)
    (h : a.latest_events.length ≤ 100) :
    (a.update tracks).1.latest_events.length ≤ 100 ∧
    (a.update tracks).1.latest_events =
      ((a.update tracks).2 ++ a.latest_events).take 100 ∧
    (a.update tracks).2 = generatedEvents a.lines tracks := by
  by_cases hev : (generatedEvents a.lines tracks).isEmpty
  · have hnil : generatedEvents a.lines tracks = [] := by
      simpa [List.isEmpty_iff] using hev
    refine ⟨?_, ?_, ?_⟩ <;>
      simp [AnalyticsEngine.update, hnil, h, List.take_of_length_le h]
  · refine ⟨?_, ?_, ?_⟩ <;>
      simp [AnalyticsEngine.update, hev, List.length_take, min_le_left]

/-- Witness for C8 on a fresh engine with one line and one crossing track. -/
theorem c8_event_retention_witness :
    (({ lines := [sampleLine] } : AnalyticsEngine).latest_events.length ≤ 100) ∧
    (({ lines := [sampleLine] } : AnalyticsEngine).update
      [trackAcross]).1.latest_events.length ≤ 100 :=
  ⟨by decide,
    (c8_event_retention { lines := [sampleLine] } [trackAcross] (by decide)).1⟩

/-- C2: on a fresh engine with `min_hits = 2` (other parameters default),
feeding the same unchanging detection on three consecutive `update` calls
returns confirmed lists of lengths 0, 0, 1, and the confirmed track of the
third call has `hits = 2`. -/
theorem c2_confirmation_threshold :
    ((TrackingEngine.init 30 2 (3 / 10)).update [carDetection]).2.length = 0 ∧
    ((((TrackingEngine.init 30 2 (3 / 10)).update [carDetection]).1.update
        [carDetection]).2.length = 0) ∧
    (((((TrackingEngine.init 30 2 (3 / 10)).update [carDetection]).1.update
        [carDetection]).1.update [carDetection]).2.length = 1) ∧
    (((((TrackingEngine.init 30 2 (3 / 10)).update [carDetection]).1.update
        [carDetection]).1.update [carDetection]).2.map fun t => t.hits) = [2] := by
  decide

/-- C5 counterexample: a touching configuration — the line's endpoint (1,0)
is collinear with (and lies on) the movement segment (0,0)-(2,0) — still
satisfies the general-position condition and produces a crossing event,
contradicting "collinear or touching configurations always resolving to no
crossing". -/
theorem c5_counterexample :
    orientation (0, 0) (2, 0) (1, 0) = 0 ∧
    (0 : Int) ≤ 1 ∧ (1 : Int) ≤ 2 ∧
    _check_line_crossing (0, 0) (2, 0) touchLine = true ∧
    ((AnalyticsEngine.update { lines := [touchLine] } [trackTouch]).2.map
      fun ev => (ev.track_id, ev.line_id)) = [(8, "T")] := by
  decide

/-- C5 (amended): the crossing test is exactly the general-position
condition `o1 ≠ o2 ∧ o3 ≠ o4` (configurations failing it — in particular
fully collinear ones — resolve to no crossing, though touching
configurations may satisfy it); each true test yields exactly one event;
tracks with fewer than 2 detections yield zero events; and the two concrete
examples behave as the spec states. -/
theorem c5_line_crossing_events :
    (∀ (p1 p2 : Int × Int) (line : Line),
      _check_line_crossing p1 p2 line = true ↔
        (orientation p1 p2 (line.x1, line.y1) ≠ orientation p1 p2 (line.x2, line.y2) ∧
         orientation (line.x1, line.y1) (line.x2, line.y2) p1 ≠
           orientation (line.x1, line.y1) (line.x2, line.y2) p2)) ∧
    (∀ (p1 p2 : Int × Int) (line : Line),
      orientation p1 p2 (line.x1, line.y1) = orientation p1 p2 (line.x2, line.y2) →
        _check_line_crossing p1 p2 line = false) ∧
    (∀ (a : AnalyticsEngine) (tracks : List Track),
      (∀ tr ∈ tracks, tr.detections.length < 2) → (a.update tracks).2 = []) ∧
    (∀ (lines : List Line) (tr : Track), 2 ≤ tr.detections.length →
      (generatedEvents lines [tr]).length = (lines.filter fun line =>
        _check_line_crossing
          ((tr.detections.getD (tr.detections.length - 2) defaultDetection).center)
          ((tr.detections.getD (tr.detections.length - 1) defaultDetection).center)
          line).length) ∧
    ((AnalyticsEngine.update { lines := [sampleLine] } [trackAcross]).2.map
        fun ev => (ev.track_id, ev.line_id)) = [(5, "L1")] ∧
    (AnalyticsEngine.update { lines := [sampleLine] } [trackShort]).2 = [] ∧
    (AnalyticsEngine.update { lines := [sampleLine] } [trackOneDet]).2 = [] := by
  refine ⟨?_, ?_, ?_, ?_, by decide, by decide, by decide⟩
  · intro p1 p2 line
    simp [_check_line_crossing, Bool.and_eq_true, bne_iff_ne]
  · intro p1 p2 line h
    simp [_check_line_crossing, h]
  · intro a tracks h
    have : generatedEvents a.lines tracks = [] := by
      unfold generatedEvents
      rw [List.flatMap_eq_nil_iff]
      intro tr htr
      simp [h tr htr]
    simp [AnalyticsEngine.update, this]
  · intro lines tr h
    unfold generatedEvents
    simp [Nat.not_lt.2 h]

/-- Witness for C5 at the one-detection track. -/
theorem c5_line_crossing_events_witness :
    (∀ tr ∈ [trackOneDet], tr.detections.length < 2) ∧
    (AnalyticsEngine.update { lines := [sampleLine] } [trackOneDet]).2 = [] :=
  ⟨by decide, c5_line_crossing_events.2.2.1 { lines := [sampleLine] } [trackOneDet] (by decide)⟩

/-- `getD` of a map over `List.range`. -/
theorem getD_map_range {α : Type} (f : Nat → α) (n t : Nat) (d : α) (ht : t < n) :
    ((List.range n).map f).getD t d = f t := by
  rw [List.getD_eq_getElem?_getD, List.getElem?_map, List.getElem?_range ht]
  rfl

/-- The processed-track list is positionally `processOne`. -/
theorem processedTracks_getD (e : TrackingEngine) (dets : List Detection) (t : Nat)
    (ht : t < (activeAged e).length) :
    (processedTracks e dets).getD t defaultTrack = processOne e dets t :=
  getD_map_range _ _ _ _ ht

/-- Aging commutes with the active filter: the active-track list built inside
`update` is the original active list with every age bumped. -/
theorem activeAged_eq_map_filter (e : TrackingEngine) :
    activeAged e =
      (e.tracks.filter fun t => t.active).map fun t => { t with age := t.age + 1 } := by
  unfold activeAged agedTracks
  rw [List.filter_map]
  rfl

/-- Positional age relation between the in-update active list and the
original active list. -/
theorem activeAged_getD_age (e : TrackingEngine) (t : Nat)
    (ht : t < (activeAged e).length) :
    ((activeAged e).getD t defaultTrack).age =
      ((e.tracks.filter fun tr => tr.active).getD t defaultTrack).age + 1 := by
  rw [activeAged_eq_map_filter] at ht ⊢
  have hlt : t < (e.tracks.filter fun tr => tr.active).length := by
    simpa using ht
  rw [List.getD_eq_getElem?_getD, List.getElem?_map, List.getElem?_eq_getElem hlt,
    List.getD_eq_getElem?_getD, List.getElem?_eq_getElem hlt]
  simp

/-- A track index outside the accepted pairs is not found by the match scan. -/
theorem find?_acceptedPairs_none (e : TrackingEngine) (dets : List Detection) (t : Nat)
    (h : t ∉ (acceptedPairs e dets).map Prod.fst) :
    (acceptedPairs e dets).find? (fun p => p.1 == t) = none := by
  rw [List.find?_eq_none]
  intro p hp
  simp only [beq_iff_eq]
  intro hpt
  exact h (hpt ▸ List.mem_map_of_mem Prod.fst hp)

/-- A track index among the accepted pairs is found by the match scan. -/
theorem find?_acceptedPairs_some (e : TrackingEngine) (dets : List Detection) (t : Nat)
    (h : t ∈ (acceptedPairs e dets).map Prod.fst) :
    ∃ p, (acceptedPairs e dets).find? (fun q => q.1 == t) = some p ∧
      p ∈ acceptedPairs e dets ∧ p.1 = t := by
  obtain ⟨p, hp, hpt⟩ := List.mem_map.1 h
  have hsome : ((acceptedPairs e dets).find? (fun q => q.1 == t)).isSome := by
    rw [List.find?_isSome]
    exact ⟨p, hp, by simp [hpt]⟩
  obtain ⟨q, hq⟩ := Option.isSome_iff_exists.1 hsome
  exact ⟨q, hq, List.mem_of_find?_eq_some hq, by simpa using List.find?_some hq⟩

/-- An unmatched track keeps its (already incremented) age, detections, hits
and id through steps 4/6. -/
theorem processOne_unmatched (e : TrackingEngine) (dets : List Detection) (t : Nat)
    (h : t ∉ (acceptedPairs e dets).map Prod.fst) :
    (processOne e dets t).age = ((activeAged e).getD t defaultTrack).age ∧
    (processOne e dets t).detections = ((activeAged e).getD t defaultTrack).detections ∧
    (processOne e dets t).hits = ((activeAged e).getD t defaultTrack).hits ∧
    (processOne e dets t).track_id = ((activeAged e).getD t defaultTrack).track_id := by
  have hf := find?_acceptedPairs_none e dets t h
  unfold processOne
  rw [hf]
  simp only [List.getD_eq_getElem?_getD]
  by_cases hage : e.max_age < ((activeAged e)[t]?.getD defaultTrack).age <;> simp [hage]

/-- A matched track has its age reset to 0. -/
theorem processOne_matched_age (e : TrackingEngine) (dets : List Detection) (t : Nat)
    (h : t ∈ (acceptedPairs e dets).map Prod.fst) :
    (processOne e dets t).age = 0 := by
  obtain ⟨p, hf, _, _⟩ := find?_acceptedPairs_some e dets t h
  unfold processOne
  rw [hf]

/-- With zero detections the assignment matrix has zero columns, so the
complete matching is empty. -/
theorem allMatchings_zero_right (n : Nat) : allMatchings n 0 = [[]] := by
  unfold allMatchings
  by_cases h : n ≤ 0
  · have : n = 0 := Nat.le_zero.1 h
    subst this
    simp [injections]
  · simp [h, injections]

/-- An empty detections list yields no accepted pairs. -/
theorem acceptedPairs_nil_dets (e : TrackingEngine) : acceptedPairs e [] = [] := by
  unfold acceptedPairs engineAssignment linear_sum_assignment
  simp [allMatchings_zero_right]

/-- C4: a live track's age increases by exactly 1 on an update call in which
it is not matched and is reset to 0 when matched; an empty detections list
creates no new tracks (the id counter is untouched) while every live track
still ages; and the concrete `max_age = 2` scenario ages 1, 2, then is
purged. -/
theorem c4_aging_and_eviction :
    (∀ (e : TrackingEngine) (dets : List Detection) (t : Nat),
      t < (activeAged e).length →
      (t ∉ (acceptedPairs e dets).map Prod.fst →
        ((processedTracks e dets).getD t defaultTrack).age =
          ((e.tracks.filter fun tr => tr.active).getD t defaultTrack).age + 1) ∧
      (t ∈ (acceptedPairs e dets).map Prod.fst →
        ((processedTracks e dets).getD t defaultTrack).age = 0)) ∧
    (∀ e : TrackingEngine, acceptedPairs e [] = []) ∧
    (∀ e : TrackingEngine, (e.update []).1.next_track_id = e.next_track_id) ∧
    (((TrackingEngine.init 2 3 (3 / 10)).update [carDetection]).1.update
        []).1.get_active_tracks.map (fun t => t.age) = [1] ∧
    (((((TrackingEngine.init 2 3 (3 / 10)).update [carDetection]).1.update
        []).1.update []).1.get_active_tracks.map fun t => t.age) = [2] ∧
    ((((((TrackingEngine.init 2 3 (3 / 10)).update [carDetection]).1.update
        []).1.update []).1.update []).1.get_active_tracks = []) := by
  refine ⟨?_, acceptedPairs_nil_dets, ?_, by decide, by decide, by decide⟩
  · intro e dets t ht
    constructor
    · intro h
      rw [processedTracks_getD e dets t ht, (processOne_unmatched e dets t h).1,
        activeAged_getD_age e t ht]
    · intro h
      rw [processedTracks_getD e dets t ht, processOne_matched_age e dets t h]
  · intro e
    unfold TrackingEngine.update
    by_cases h : e.tracks.isEmpty <;>
      simp [h, unmatchedDets, acceptedPairs_nil_dets]

/-- Witness for C4 at a concrete one-track engine and an empty tick. -/
theorem c4_aging_and_eviction_witness :
    (0 < (activeAged ((TrackingEngine.init 2 3 (3 / 10)).update [carDetection]).1).length) ∧
    ((0 : Nat) ∉ (acceptedPairs ((TrackingEngine.init 2 3 (3 / 10)).update
      [carDetection]).1 []).map Prod.fst) ∧
    ((processedTracks ((TrackingEngine.init 2 3 (3 / 10)).update [carDetection]).1
        []).getD 0 defaultTrack).age =
      ((((TrackingEngine.init 2 3 (3 / 10)).update [carDetection]).1.tracks.filter
        fun tr => tr.active).getD 0 defaultTrack).age + 1 :=
  ⟨by decide, by decide,
    (c4_aging_and_eviction.1 ((TrackingEngine.init 2 3 (3 / 10)).update [carDetection]).1
      [] 0 (by decide)).1 (by decide)⟩

/-! ## Properties of the assignment solver -/

/-- The result of the running-minimum fold is among the candidates. -/
theorem foldl_min_mem {α : Type} (f : α → ℚ) (rest : List α) (a : α) :
    rest.foldl (fun best B => if f B < f best then B else best) a ∈ a :: rest := by
  induction rest generalizing a with
  | nil => simp
  | cons x xs ih =>
    rw [List.foldl_cons]
    rcases List.mem_cons.1 (ih (if f x < f a then x else a)) with h1 | h1
    · by_cases hx : f x < f a
      · rw [if_pos hx] at h1 ⊢
        simp [h1]
      · rw [if_neg hx] at h1 ⊢
        simp [h1]
    · exact List.mem_cons_of_mem _ (List.mem_cons_of_mem _ h1)

/-- The fold result minimises `f` over the initial value and all candidates. -/
theorem foldl_min_le {α : Type} (f : α → ℚ) (rest : List α) : ∀ (a b : α),
    b ∈ a :: rest →
    f (rest.foldl (fun best B => if f B < f best then B else best) a) ≤ f b := by
  induction rest with
  | nil =>
    intro a b hb
    rw [List.mem_singleton] at hb
    subst hb
    simp
  | cons x xs ih =>
    intro a b hb
    rw [List.foldl_cons]
    have hstep_a : f (if f x < f a then x else a) ≤ f a := by
      by_cases hx : f x < f a
      · rw [if_pos hx]; exact le_of_lt hx
      · rw [if_neg hx]
    have hstep_x : f (if f x < f a then x else a) ≤ f x := by
      by_cases hx : f x < f a
      · rw [if_pos hx]
      · rw [if_neg hx]; exact not_lt.1 hx
    have hhead := ih (if f x < f a then x else a) _ (List.mem_cons_self _ _)
    rcases List.mem_cons.1 hb with rfl | hb'
    · exact hhead.trans hstep_a
    · rcases List.mem_cons.1 hb' with rfl | hb''
      · exact hhead.trans hstep_x
      · exact ih _ _ (List.mem_cons_of_mem _ hb'')

/-- Soundness of the injection enumeration: members have the right length,
are duplicate-free and draw from `cols`. -/
theorem injections_sound : ∀ (k : Nat) (cols : List Nat), cols.Nodup →
    ∀ l ∈ injections k cols, l.length = k ∧ l.Nodup ∧ ∀ x ∈ l, x ∈ cols := by
  intro k
  induction k with
  | zero =>
    intro cols _ l hl
    simp only [injections, List.mem_singleton] at hl
    subst hl
    simp
  | succ k ih =>
    intro cols hnd l hl
    simp only [injections, List.mem_flatMap, List.mem_map] at hl
    obtain ⟨c, hc, l', hl', rfl⟩ := hl
    obtain ⟨hlen, hnodup, hsub⟩ := ih (cols.erase c) (hnd.erase c) l' hl'
    refine ⟨by simp [hlen], ?_, ?_⟩
    · rw [List.nodup_cons]
      refine ⟨fun hmem => ?_, hnodup⟩
      exact ((List.Nodup.mem_erase_iff hnd).1 (hsub c hmem)).1 rfl
    · intro x hx
      rcases List.mem_cons.1 hx with rfl | hx'
      · exact hc
      · exact List.mem_of_mem_erase (hsub x hx')

/-- Completeness of the injection enumeration: every duplicate-free list
drawing from `cols` is enumerated. -/
theorem injections_complete : ∀ (l cols : List Nat), cols.Nodup → l.Nodup →
    (∀ x ∈ l, x ∈ cols) → l ∈ injections l.length cols := by
  intro l
  induction l with
  | nil =>
    intro cols _ _ _
    simp [injections]
  | cons c l' ih =>
    intro cols hcols hnd hsub
    have hc : c ∈ cols := hsub c (List.mem_cons_self _ _)
    rw [List.nodup_cons] at hnd
    have hsub' : ∀ x ∈ l', x ∈ cols.erase c := by
      intro x hx
      rw [List.Nodup.mem_erase_iff hcols]
      exact ⟨fun hxc => hnd.1 (hxc ▸ hx), hsub x (List.mem_cons_of_mem _ hx)⟩
    have hmem := ih (cols.erase c) (hcols.erase c) hnd.2 hsub'
    simp only [List.length_cons, injections, List.mem_flatMap]
    exact ⟨c, hc, List.mem_map.2 ⟨l', hmem, rfl⟩⟩

/-- The injection enumeration is nonempty whenever enough columns exist. -/
theorem injections_ne_nil : ∀ (k : Nat) (cols : List Nat), k ≤ cols.length →
    injections k cols ≠ [] := by
  intro k
  induction k with
  | zero =>
    intro cols _
    simp [injections]
  | succ k ih =>
    intro cols h
    cases cols with
    | nil => simp at h
    | cons c rest =>
      have hlen : k ≤ ((c :: rest).erase c).length := by
        rw [List.erase_cons_head]
        simpa using Nat.le_of_succ_le_succ h
      obtain ⟨l, hl⟩ := List.exists_mem_of_ne_nil _ (ih ((c :: rest).erase c) hlen)
      intro hcontra
      have hmem : (c :: l) ∈ injections (k + 1) (c :: rest) := by
        simp only [injections, List.mem_flatMap]
        exact ⟨c, List.mem_cons_self _ _, List.mem_map.2 ⟨l, hl, rfl⟩⟩
      rw [hcontra] at hmem
      simp at hmem

/-- Every enumerated matching is a one-to-one assignment of the right size
within the matrix bounds. -/
theorem allMatchings_sound (n m : Nat) (A : List (Nat × Nat))
    (hA : A ∈ allMatchings n m) :
    A.length = min n m ∧ (A.map Prod.fst).Nodup ∧ (A.map Prod.snd).Nodup ∧
      ∀ p ∈ A, p.1 < n ∧ p.2 < m := by
  unfold allMatchings at hA
  by_cases h : n ≤ m
  · rw [if_pos h, List.mem_map] at hA
    obtain ⟨l, hl, rfl⟩ := hA
    obtain ⟨hlen, hnd, hsub⟩ := injections_sound n (List.range m) (List.nodup_range m) l hl
    have hlr : (List.range n).length = n := List.length_range n
    have hmapfst : ((List.range n).zip l).map Prod.fst = List.range n :=
      List.map_fst_zip _ _ (by rw [hlr, hlen])
    have hmapsnd : ((List.range n).zip l).map Prod.snd = l :=
      List.map_snd_zip _ _ (by rw [hlr, hlen])
    refine ⟨?_, ?_, ?_, ?_⟩
    · rw [List.length_zip, hlr, hlen]
      omega
    · rw [hmapfst]; exact List.nodup_range n
    · rw [hmapsnd]; exact hnd
    · rintro ⟨p1, p2⟩ hp
      have hmem := List.of_mem_zip hp
      exact ⟨List.mem_range.1 hmem.1, List.mem_range.1 (hsub _ hmem.2)⟩
  · rw [if_neg h, List.mem_map] at hA
    obtain ⟨l, hl, rfl⟩ := hA
    obtain ⟨hlen, hnd, hsub⟩ := injections_sound m (List.range n) (List.nodup_range n) l hl
    have hlr : (List.range m).length = m := List.length_range m
    have hmapfst : (l.zip (List.range m)).map Prod.fst = l :=
      List.map_fst_zip _ _ (by rw [hlr, hlen])
    have hmapsnd : (l.zip (List.range m)).map Prod.snd = List.range m :=
      List.map_snd_zip _ _ (by rw [hlr, hlen])
    refine ⟨?_, ?_, ?_, ?_⟩
    · rw [List.length_zip, hlr, hlen]
      omega
    · rw [hmapfst]; exact hnd
    · rw [hmapsnd]; exact List.nodup_range m
    · rintro ⟨p1, p2⟩ hp
      have hmem := List.of_mem_zip hp
      exact ⟨List.mem_range.1 (hsub _ hmem.1), List.mem_range.1 hmem.2⟩

/-- Completeness (row form): when every row can be assigned, any injective
choice of columns for the rows is an enumerated matching. -/
theorem allMatchings_complete_rows (n m : Nat) (h : n ≤ m) (σ : Nat → Nat)
    (hb : ∀ i < n, σ i < m) (hinj : ∀ i < n, ∀ j < n, σ i = σ j → i = j) :
    ((List.range n).map fun t => (t, σ t)) ∈ allMatchings n m := by
  have hnodup : ((List.range n).map σ).Nodup := by
    refine List.Nodup.map_on ?_ (List.nodup_range n)
    intro x hx y hy hxy
    exact hinj x (List.mem_range.1 hx) y (List.mem_range.1 hy) hxy
  have hsub : ∀ x ∈ (List.range n).map σ, x ∈ List.range m := by
    intro x hx
    obtain ⟨i, hi, rfl⟩ := List.mem_map.1 hx
    exact List.mem_range.2 (hb i (List.mem_range.1 hi))
  have hl : (List.range n).map σ ∈ injections n (List.range m) := by
    have hmem := injections_complete ((List.range n).map σ) (List.range m)
      (List.nodup_range m) hnodup hsub
    rwa [List.length_map, List.length_range] at hmem
  unfold allMatchings
  rw [if_pos h, List.mem_map]
  refine ⟨(List.range n).map σ, hl, ?_⟩
  calc (List.range n).zip ((List.range n).map σ)
      = ((List.range n).map id).zip ((List.range n).map σ) := by rw [List.map_id]
    _ = (List.range n).map (fun t => (id t, σ t)) := List.zip_map' id σ (List.range n)
    _ = (List.range n).map (fun t => (t, σ t)) := rfl

/-- Completeness (column form): when every column can be assigned, any
injective choice of rows for the columns is an enumerated matching. -/
theorem allMatchings_complete_cols (n m : Nat) (h : ¬ n ≤ m) (σ : Nat → Nat)
    (hb : ∀ d < m, σ d < n) (hinj : ∀ d < m, ∀ d' < m, σ d = σ d' → d = d') :
    ((List.range m).map fun d => (σ d, d)) ∈ allMatchings n m := by
  have hnodup : ((List.range m).map σ).Nodup := by
    refine List.Nodup.map_on ?_ (List.nodup_range m)
    intro x hx y hy hxy
    exact hinj x (List.mem_range.1 hx) y (List.mem_range.1 hy) hxy
  have hsub : ∀ x ∈ (List.range m).map σ, x ∈ List.range n := by
    intro x hx
    obtain ⟨i, hi, rfl⟩ := List.mem_map.1 hx
    exact List.mem_range.2 (hb i (List.mem_range.1 hi))
  have hl : (List.range m).map σ ∈ injections m (List.range n) := by
    have hmem := injections_complete ((List.range m).map σ) (List.range n)
      (List.nodup_range n) hnodup hsub
    rwa [List.length_map, List.length_range] at hmem
  unfold allMatchings
  rw [if_neg h, List.mem_map]
  refine ⟨(List.range m).map σ, hl, ?_⟩
  calc ((List.range m).map σ).zip (List.range m)
      = ((List.range m).map σ).zip ((List.range m).map id) := by rw [List.map_id]
    _ = (List.range m).map (fun d => (σ d, id d)) := List.zip_map' σ id (List.range m)
    _ = (List.range m).map (fun d => (σ d, d)) := rfl

/-- The matching enumeration is never empty. -/
theorem allMatchings_ne_nil (n m : Nat) : allMatchings n m ≠ [] := by
  unfold allMatchings
  by_cases h : n ≤ m
  · rw [if_pos h]
    intro hcontra
    exact injections_ne_nil n (List.range m) (by simpa using h)
      (by simpa using congrArg List.length hcontra)
  · rw [if_neg h]
    intro hcontra
    exact injections_ne_nil m (List.range n)
      (by simp [List.length_range]; omega)
      (by simpa using congrArg List.length hcontra)

/-- The solver returns one of the enumerated matchings. -/
theorem linear_sum_assignment_mem (C : Nat → Nat → ℚ) (n m : Nat) :
    linear_sum_assignment C n m ∈ allMatchings n m := by
  unfold linear_sum_assignment
  cases hM : allMatchings n m with
  | nil => exact absurd hM (allMatchings_ne_nil n m)
  | cons A rest => exact foldl_min_mem (pairCost C) rest A

/-- The solver's matching has minimal total cost among all enumerated
matchings. -/
theorem linear_sum_assignment_min (C : Nat → Nat → ℚ) (n m : Nat)
    (B : List (Nat × Nat)) (hB : B ∈ allMatchings n m) :
    pairCost C (linear_sum_assignment C n m) ≤ pairCost C B := by
  unfold linear_sum_assignment
  cases hM : allMatchings n m with
  | nil =>
    rw [hM] at hB
    simp at hB
  | cons A rest =>
    rw [hM] at hB
    exact foldl_min_le (pairCost C) rest A B hB

/-- Negating the cost matrix negates every total. -/
theorem pairCost_neg (C : Nat → Nat → ℚ) (A : List (Nat × Nat)) :
    pairCost (fun t d => -(C t d)) A = -pairCost C A := by
  unfold pairCost
  induction A with
  | nil => simp
  | cons p ps ih =>
    simp only [List.map_cons, List.sum_cons, ih]
    ring

/-! ## Characterisation of the engine update -/

/-- `getD` membership at an in-range index. -/
theorem getD_mem_of_lt {α : Type} (l : List α) (i : Nat) (d : α) (h : i < l.length) :
    l.getD i d ∈ l := by
  rw [List.getD_eq_getElem?_getD, List.getElem?_eq_getElem h]
  exact List.getElem_mem h

/-- The `_create_track` loop appends exactly the batch of fresh tracks and
advances the id counter by the batch size. -/
theorem foldl_create_track (ds : List Detection) : ∀ (e : TrackingEngine),
    ds.foldl TrackingEngine._create_track e =
      { e with tracks := e.tracks ++ mkNewTracks e.next_track_id ds,
               next_track_id := e.next_track_id + ds.length } := by
  induction ds with
  | nil =>
    intro e
    simp [mkNewTracks]
  | cons d ds ih =>
    intro e
    rw [List.foldl_cons, ih]
    simp [TrackingEngine._create_track, mkNewTracks, List.append_assoc]
    omega

/-- Every member of a fresh batch records one of its detections and carries
an id inside the allotted fresh range. -/
theorem mkNewTracks_mem (ds : List Detection) : ∀ (nid : Nat) (tr : Track),
    tr ∈ mkNewTracks nid ds →
    ∃ d ∈ ds, tr = newTrackFor tr.track_id d ∧ nid ≤ tr.track_id ∧
      tr.track_id < nid + ds.length := by
  induction ds with
  | nil =>
    intro nid tr h
    simp [mkNewTracks] at h
  | cons d ds ih =>
    intro nid tr h
    rw [mkNewTracks] at h
    rcases List.mem_cons.1 h with rfl | h'
    · refine ⟨d, List.mem_cons_self _ _, rfl, le_refl _, ?_⟩
      show nid < nid + (ds.length + 1)
      omega
    · obtain ⟨d', hd', heq, hle, hlt⟩ := ih (nid + 1) tr h'
      refine ⟨d', List.mem_cons_of_mem _ hd', heq, by omega, ?_⟩
      rw [List.length_cons]
      omega

/-- Every detection in the batch spawns a fresh track recording it. -/
theorem mkNewTracks_exists (ds : List Detection) : ∀ (nid : Nat) (d : Detection),
    d ∈ ds → ∃ tr ∈ mkNewTracks nid ds, nid ≤ tr.track_id ∧
      tr = newTrackFor tr.track_id d := by
  induction ds with
  | nil =>
    intro nid d h
    simp at h
  | cons d0 ds ih =>
    intro nid d h
    rcases List.mem_cons.1 h with rfl | h'
    · exact ⟨newTrackFor nid d, by rw [mkNewTracks]; exact List.mem_cons_self _ _,
        le_refl _, rfl⟩
    · obtain ⟨tr, htr, hle, heq⟩ := ih (nid + 1) d h'
      exact ⟨tr, by rw [mkNewTracks]; exact List.mem_cons_of_mem _ htr, by omega, heq⟩

/-- `update` on a nonempty live set: the processed active list plus fresh
tracks for the unmatched detections, purged of inactive tracks. -/
theorem update_tracks_nonempty (e : TrackingEngine) (dets : List Detection)
    (h : e.tracks ≠ []) :
    (e.update dets).1.tracks =
      (processedTracks e dets ++ mkNewTracks e.next_track_id
        ((unmatchedDets e dets).map fun d => dets.getD d defaultDetection)).filter
        (fun t => t.active) ∧
    (e.update dets).1.next_track_id =
      e.next_track_id + (unmatchedDets e dets).length := by
  have hne : e.tracks.isEmpty = false := by simpa [List.isEmpty_iff] using h
  unfold TrackingEngine.update
  simp only [hne, Bool.false_eq_true, if_false]
  rw [foldl_create_track]
  constructor <;> simp [List.filter_append]

/-- `update` on an empty live set: the bulk-create path. -/
theorem update_tracks_empty (e : TrackingEngine) (dets : List Detection)
    (h : e.tracks = []) :
    (e.update dets).1.tracks =
      (mkNewTracks e.next_track_id dets).filter (fun t => t.active) ∧
    (e.update dets).1.next_track_id = e.next_track_id + dets.length := by
  have hne : e.tracks.isEmpty = true := by simp [h]
  constructor <;>
  · unfold TrackingEngine.update
    rw [foldl_create_track]
    simp [hne, h]

/-- The id counter never decreases across an update. -/
theorem update_next_mono (e : TrackingEngine) (dets : List Detection) :
    e.next_track_id ≤ (e.update dets).1.next_track_id := by
  by_cases hemp : e.tracks = []
  · rw [(update_tracks_empty e dets hemp).2]; omega
  · rw [(update_tracks_nonempty e dets hemp).2]; omega

/-- Members of the processed list are positional images of `processOne`. -/
theorem mem_processedTracks (e : TrackingEngine) (dets : List Detection) (tr : Track)
    (h : tr ∈ processedTracks e dets) :
    ∃ t, t < (activeAged e).length ∧ tr = processOne e dets t := by
  unfold processedTracks at h
  obtain ⟨t, ht, rfl⟩ := List.mem_map.1 h
  exact ⟨t, List.mem_range.1 ht, rfl⟩

/-- Members of the in-update active list are aged copies of active live
tracks. -/
theorem mem_activeAged (e : TrackingEngine) (tr : Track) (h : tr ∈ activeAged e) :
    ∃ t0 ∈ e.tracks, t0.active = true ∧ tr = { t0 with age := t0.age + 1 } := by
  unfold activeAged agedTracks at h
  have hact := List.of_mem_filter h
  obtain ⟨t0, ht0, heq⟩ := List.mem_map.1 (List.mem_of_mem_filter h)
  refine ⟨t0, ht0, ?_, heq.symm⟩
  rw [← heq] at hact
  simpa using hact

/-- Detailed shape of a matched track after steps 4/6. -/
theorem processOne_matched_spec (e : TrackingEngine) (dets : List Detection) (t : Nat)
    (h : t ∈ (acceptedPairs e dets).map Prod.fst) :
    ∃ p ∈ acceptedPairs e dets, p.1 = t ∧
      (processOne e dets t).detections =
        ((activeAged e).getD t defaultTrack).detections ++
          [{ dets.getD p.2 defaultDetection with
              track_id := some ((activeAged e).getD t defaultTrack).track_id }] ∧
      (processOne e dets t).hits = ((activeAged e).getD t defaultTrack).hits + 1 ∧
      (processOne e dets t).age = 0 ∧
      (processOne e dets t).track_id = ((activeAged e).getD t defaultTrack).track_id ∧
      (processOne e dets t).active = ((activeAged e).getD t defaultTrack).active := by
  obtain ⟨p, hf, hmem, hpt⟩ := find?_acceptedPairs_some e dets t h
  refine ⟨p, hmem, hpt, ?_⟩
  unfold processOne
  rw [hf]
  simp only [List.getD_eq_getElem?_getD]
  simp [Track.updateDet]

/-- An unmatched track also keeps its id and, when it survives, its flag. -/
theorem processOne_unmatched_id (e : TrackingEngine) (dets : List Detection) (t : Nat)
    (h : t ∉ (acceptedPairs e dets).map Prod.fst) :
    (processOne e dets t).track_id = ((activeAged e).getD t defaultTrack).track_id :=
  (processOne_unmatched e dets t h).2.2.2

/-- Case analysis for membership in the post-update live set: every surviving
track is either an existing live track (unchanged apart from aging, or
extended by exactly one matched detection), or a brand-new track recording
one of this call's detections under a fresh id. -/
theorem update_mem_tracks (e : TrackingEngine) (dets : List Detection) (tr : Track)
    (h : tr ∈ (e.update dets).1.tracks) :
    (∃ t0 ∈ e.tracks, tr.track_id = t0.track_id ∧
      ((tr.detections = t0.detections ∧ tr.hits = t0.hits ∧ tr.age = t0.age + 1) ∨
       (∃ d, tr.detections = t0.detections ++ [d] ∧ tr.hits = t0.hits + 1 ∧
         tr.age = 0))) ∨
    (∃ d ∈ dets, tr = newTrackFor tr.track_id d ∧ e.next_track_id ≤ tr.track_id ∧
      tr.track_id < (e.update dets).1.next_track_id) := by
  by_cases hemp : e.tracks = []
  · right
    obtain ⟨hupd, hnext⟩ := update_tracks_empty e dets hemp
    rw [hupd] at h
    obtain ⟨d, hd, heq, hle, hlt⟩ :=
      mkNewTracks_mem dets e.next_track_id tr (List.mem_of_mem_filter h)
    exact ⟨d, hd, heq, hle, by rw [hnext]; exact hlt⟩
  · obtain ⟨hupd, hnext⟩ := update_tracks_nonempty e dets hemp
    rw [hupd] at h
    rcases List.mem_append.1 (List.mem_of_mem_filter h) with hproc | hnew
    · left
      obtain ⟨t, ht, rfl⟩ := mem_processedTracks e dets _ hproc
      have htrackmem : (activeAged e).getD t defaultTrack ∈ activeAged e :=
        getD_mem_of_lt _ _ _ ht
      obtain ⟨t0, ht0, hact, htrep⟩ := mem_activeAged e _ htrackmem
      by_cases hm : t ∈ (acceptedPairs e dets).map Prod.fst
      · obtain ⟨p, hpmem, hpt, hdet, hhits, hage, hid, _⟩ :=
          processOne_matched_spec e dets t hm
        refine ⟨t0, ht0, by rw [hid, htrep], Or.inr
          ⟨{ dets.getD p.2 defaultDetection with
              track_id := some ((activeAged e).getD t defaultTrack).track_id },
            by rw [hdet, htrep], by rw [hhits, htrep], hage⟩⟩
      · obtain ⟨hage, hdet, hhits, hid⟩ := processOne_unmatched e dets t hm
        refine ⟨t0, ht0, ?_, Or.inl ⟨?_, ?_, ?_⟩⟩
        · rw [hid, htrep]
        · rw [hdet, htrep]
        · rw [hhits, htrep]
        · rw [hage, htrep]
    · right
      obtain ⟨d, hd, heq, hle, hlt⟩ :=
        mkNewTracks_mem _ e.next_track_id tr hnew
      obtain ⟨i, hi, rfl⟩ := List.mem_map.1 hd
      have him : i < dets.length :=
        List.mem_range.1 (List.mem_of_mem_filter hi)
      refine ⟨dets.getD i defaultDetection, getD_mem_of_lt _ _ _ him, heq, hle, ?_⟩
      rw [hnext]
      simpa using hlt

/-- C3 counterexample: the very first track created by a fresh engine has
`hits = 0`, not `hits = 1` as the claim states (`Track` defaults `hits` to 0
and `_create_track` only appends the detection). -/
theorem c3_counterexample :
    (((TrackingEngine.init 30 3 (3 / 10)).update [carDetection]).1.tracks.map
      fun t => t.hits) = [0] ∧ ([0] : List Nat) ≠ [1] := by
  decide

/-- C3 (amended): whenever a new track is created — in the bulk-create path
or for an unmatched detection — it has `hits = 0` (not 1), `age = 0`, is
active, records exactly the founding detection, and `next_track_id` is
incremented so each track id is fresh and never reused. -/
theorem c3_track_creation :
    (∀ (nid : Nat) (d : Detection),
      (newTrackFor nid d).hits = 0 ∧ (newTrackFor nid d).age = 0 ∧
      (newTrackFor nid d).active = true ∧ (newTrackFor nid d).track_id = nid ∧
      (newTrackFor nid d).detections = [{ d with track_id := some nid }]) ∧
    (∀ (e : TrackingEngine) (d : Detection),
      (e._create_track d).tracks = e.tracks ++ [newTrackFor e.next_track_id d] ∧
      (e._create_track d).next_track_id = e.next_track_id + 1) ∧
    (∀ (e : TrackingEngine) (dets : List Detection),
      e.next_track_id ≤ (e.update dets).1.next_track_id) ∧
    (∀ (e : TrackingEngine) (dets : List Detection),
      (∀ t ∈ e.tracks, t.track_id < e.next_track_id) →
      ∀ t ∈ (e.update dets).1.tracks,
        t.track_id < (e.update dets).1.next_track_id) := by
  refine ⟨?_, ?_, update_next_mono, ?_⟩
  · intro nid d
    exact ⟨rfl, rfl, rfl, rfl, rfl⟩
  · intro e d
    exact ⟨rfl, rfl⟩
  · intro e dets hinv tr htr
    rcases update_mem_tracks e dets tr htr with ⟨t0, ht0, hid, _⟩ | ⟨_, _, _, _, hlt⟩
    · calc tr.track_id = t0.track_id := hid
        _ < e.next_track_id := hinv t0 ht0
        _ ≤ (e.update dets).1.next_track_id := update_next_mono e dets
    · exact hlt

/-- Witness for C3 on a fresh engine and one detection. -/
theorem c3_track_creation_witness :
    (∀ t ∈ (TrackingEngine.init 30 3 (3 / 10)).tracks,
      t.track_id < (TrackingEngine.init 30 3 (3 / 10)).next_track_id) ∧
    (∀ t ∈ ((TrackingEngine.init 30 3 (3 / 10)).update [carDetection]).1.tracks,
      t.track_id <
        ((TrackingEngine.init 30 3 (3 / 10)).update [carDetection]).1.next_track_id) :=
  ⟨by decide,
    c3_track_creation.2.2.2 (TrackingEngine.init 30 3 (3 / 10)) [carDetection]
      (by decide)⟩

/-- C9: `hits ≤ len(detections)` holds for every live track, both as a
one-step preserved invariant of `update` and after every sequence of update
calls from a fresh engine. -/
theorem c9_hits_le_detections :
    (∀ (e : TrackingEngine) (dets : List Detection),
      (∀ t ∈ e.tracks, t.hits ≤ t.detections.length) →
      ∀ t ∈ (e.update dets).1.tracks, t.hits ≤ t.detections.length) ∧
    (∀ (dss : List (List Detection)) (max_age min_hits : Nat) (thr : ℚ),
      ∀ t ∈ (dss.foldl (fun e ds => (e.update ds).1)
          (TrackingEngine.init max_age min_hits thr)).tracks,
        t.hits ≤ t.detections.length) := by
  have hpres : ∀ (e : TrackingEngine) (dets : List Detection),
      (∀ t ∈ e.tracks, t.hits ≤ t.detections.length) →
      ∀ t ∈ (e.update dets).1.tracks, t.hits ≤ t.detections.length := by
    intro e dets hinv tr htr
    rcases update_mem_tracks e dets tr htr with
      ⟨t0, ht0, _, ⟨hdet, hhits, _⟩ | ⟨d, hdet, hhits, _⟩⟩ | ⟨d, _, heq, _, _⟩
    · rw [hdet, hhits]
      exact hinv t0 ht0
    · rw [hdet, hhits, List.length_append]
      exact Nat.add_le_add_right (hinv t0 ht0) 1
    · rw [heq]
      simp [newTrackFor, Track.updateDet]
  refine ⟨hpres, ?_⟩
  intro dss max_age min_hits thr
  have haux : ∀ (e : TrackingEngine),
      (∀ t ∈ e.tracks, t.hits ≤ t.detections.length) →
      ∀ t ∈ (dss.foldl (fun e ds => (e.update ds).1) e).tracks,
        t.hits ≤ t.detections.length := by
    induction dss with
    | nil => intro e h; exact h
    | cons ds dss ih =>
      intro e h
      exact ih _ (hpres e ds h)
  apply haux
  intro t ht
  simp [TrackingEngine.init] at ht

/-- Witness for C9 on a one-track engine and a second detection. -/
theorem c9_hits_le_detections_witness :
    (∀ t ∈ ((TrackingEngine.init 30 3 (3 / 10)).update [carDetection]).1.tracks,
      t.hits ≤ t.detections.length) ∧
    (∀ t ∈ (((TrackingEngine.init 30 3 (3 / 10)).update [carDetection]).1.update
        [carDetection]).1.tracks, t.hits ≤ t.detections.length) :=
  ⟨by decide,
    c9_hits_le_detections.1 ((TrackingEngine.init 30 3 (3 / 10)).update [carDetection]).1
      [carDetection] (by decide)⟩

/-- C10: every live track always holds at least one detection (creation
appends the founding detection and updates only append), so
`get_current_bbox` is never `none` for a live track and every in-range cost
matrix cell is computed from the track's actual last-known bbox — the
zero-row branch for a bboxless track is unreachable. -/
theorem c10_tracks_have_detections :
    (∀ (e : TrackingEngine) (dets : List Detection),
      (∀ t ∈ e.tracks, t.detections ≠ []) →
      ∀ t ∈ (e.update dets).1.tracks, t.detections ≠ []) ∧
    (∀ e : TrackingEngine, (∀ t ∈ e.tracks, t.detections ≠ []) →
      ∀ t ∈ e.tracks, t.get_current_bbox ≠ none) ∧
    (∀ (e : TrackingEngine) (dets : List Detection) (t d : Nat),
      (∀ tr ∈ e.tracks, tr.detections ≠ []) →
      t < (activeAged e).length → d < dets.length →
      ∃ bb, ((activeAged e).getD t defaultTrack).get_current_bbox = some bb ∧
        engineMatrix e dets t d =
          _calculate_iou bb (dets.getD d defaultDetection).bbox) := by
  refine ⟨?_, ?_, ?_⟩
  · intro e dets hinv tr htr
    rcases update_mem_tracks e dets tr htr with
      ⟨t0, ht0, _, ⟨hdet, _, _⟩ | ⟨d, hdet, _, _⟩⟩ | ⟨d, _, heq, _, _⟩
    · rw [hdet]
      exact hinv t0 ht0
    · rw [hdet]
      simp
    · rw [heq]
      simp [newTrackFor, Track.updateDet]
  · intro e hinv t ht
    unfold Track.get_current_bbox
    have : t.detections.getLast?.isSome := by
      rw [List.getLast?_isSome]
      exact hinv t ht
    obtain ⟨d, hd⟩ := Option.isSome_iff_exists.1 this
    simp [hd]
  · intro e dets t d hinv ht hd
    have hmem := getD_mem_of_lt (activeAged e) t defaultTrack ht
    obtain ⟨t0, ht0, _, htrep⟩ := mem_activeAged e _ hmem
    have hne : ((activeAged e).getD t defaultTrack).detections ≠ [] := by
      rw [htrep]
      exact hinv t0 ht0
    have hlast : ((activeAged e).getD t defaultTrack).detections.getLast?.isSome := by
      rw [List.getLast?_isSome]
      exact hne
    obtain ⟨dd, hdd⟩ := Option.isSome_iff_exists.1 hlast
    refine ⟨dd.bbox, ?_, ?_⟩
    · unfold Track.get_current_bbox
      rw [hdd]
      rfl
    · unfold engineMatrix iouMatrix
      rw [if_pos ⟨ht, hd⟩]
      unfold Track.get_current_bbox
      rw [hdd]
      simp

/-- Witness for C10 on a one-track engine. -/
theorem c10_tracks_have_detections_witness :
    (∀ t ∈ ((TrackingEngine.init 30 3 (3 / 10)).update [carDetection]).1.tracks,
      t.detections ≠ []) ∧
    (∀ t ∈ ((TrackingEngine.init 30 3 (3 / 10)).update [carDetection]).1.tracks,
      t.get_current_bbox ≠ none) :=
  ⟨by decide,
    c10_tracks_have_detections.2.1
      ((TrackingEngine.init 30 3 (3 / 10)).update [carDetection]).1 (by decide)⟩

/-- C1: with live active tracks and detections both present, `update` pairs
tracks to detections by a globally optimal one-to-one bipartite assignment
maximising total IoU (computed as a minimum-cost assignment on the negated
matrix); the proposed assignment is one-to-one within the matrix bounds and
no injective pairing of the same size beats it; the threshold-filtered
accepted pairs stay one-to-one so each track gains at most one detection and
each detection extends at most one track; and a proposed pair whose IoU is
below `iou_threshold` is rejected — the track is left unmatched with its
already-incremented age while the detection spawns a brand-new track in the
same tick. -/
theorem c1_optimal_assignment (e : TrackingEngine) (dets : List Detection)
    (hT : activeAged e ≠ []) (_hD : dets ≠ []) :
    (((engineAssignment e dets).map Prod.fst).Nodup ∧
     ((engineAssignment e dets).map Prod.snd).Nodup ∧
     (engineAssignment e dets).length = min (activeAged e).length dets.length ∧
     ∀ p ∈ engineAssignment e dets,
       p.1 < (activeAged e).length ∧ p.2 < dets.length) ∧
    ((activeAged e).length ≤ dets.length →
      ∀ σ : Nat → Nat, (∀ i < (activeAged e).length, σ i < dets.length) →
        (∀ i < (activeAged e).length, ∀ j < (activeAged e).length,
          σ i = σ j → i = j) →
        ((List.range (activeAged e).length).map
          fun t => engineMatrix e dets t (σ t)).sum ≤
          pairCost (engineMatrix e dets) (engineAssignment e dets)) ∧
    (¬ (activeAged e).length ≤ dets.length →
      ∀ σ : Nat → Nat, (∀ d < dets.length, σ d < (activeAged e).length) →
        (∀ d < dets.length, ∀ d' < dets.length, σ d = σ d' → d = d') →
        ((List.range dets.length).map
          fun d => engineMatrix e dets (σ d) d).sum ≤
          pairCost (engineMatrix e dets) (engineAssignment e dets)) ∧
    (((acceptedPairs e dets).map Prod.fst).Nodup ∧
     ((acceptedPairs e dets).map Prod.snd).Nodup ∧
     ∀ t < (activeAged e).length,
       ((processedTracks e dets).getD t defaultTrack).detections.length ≤
         ((activeAged e).getD t defaultTrack).detections.length + 1) ∧
    (∀ p ∈ engineAssignment e dets,
      engineMatrix e dets p.1 p.2 < e.iou_threshold →
      (((processedTracks e dets).getD p.1 defaultTrack).detections =
          ((activeAged e).getD p.1 defaultTrack).detections ∧
       ((processedTracks e dets).getD p.1 defaultTrack).age =
          ((activeAged e).getD p.1 defaultTrack).age ∧
       ((processedTracks e dets).getD p.1 defaultTrack).hits =
          ((activeAged e).getD p.1 defaultTrack).hits) ∧
      ∃ tr ∈ (e.update dets).1.tracks,
        e.next_track_id ≤ tr.track_id ∧ tr.age = 0 ∧ tr.hits = 0 ∧
        tr.detections = [{ dets.getD p.2 defaultDetection with
          track_id := some tr.track_id }]) := by
  have hAmem : engineAssignment e dets ∈
      allMatchings (activeAged e).length dets.length := by
    unfold engineAssignment
    exact linear_sum_assignment_mem _ _ _
  obtain ⟨hlen, hfst, hsnd, hbounds⟩ := allMatchings_sound _ _ _ hAmem
  have hsubl : List.Sublist (acceptedPairs e dets) (engineAssignment e dets) := by
    unfold acceptedPairs
    exact List.filter_sublist _
  have hoptim : ∀ B ∈ allMatchings (activeAged e).length dets.length,
      pairCost (engineMatrix e dets) B ≤
        pairCost (engineMatrix e dets) (engineAssignment e dets) := by
    intro B hB
    have hmin : pairCost (fun t d => -(engineMatrix e dets t d))
        (engineAssignment e dets) ≤
        pairCost (fun t d => -(engineMatrix e dets t d)) B := by
      unfold engineAssignment
      exact linear_sum_assignment_min _ _ _ B hB
    rw [pairCost_neg, pairCost_neg, neg_le_neg_iff] at hmin
    exact hmin
  refine ⟨⟨hfst, hsnd, hlen, hbounds⟩, ?_, ?_, ⟨?_, ?_, ?_⟩, ?_⟩
  · intro h σ hb hinj
    have hB := allMatchings_complete_rows _ _ h σ hb hinj
    have := hoptim _ hB
    calc ((List.range (activeAged e).length).map
          fun t => engineMatrix e dets t (σ t)).sum
        = pairCost (engineMatrix e dets)
            ((List.range (activeAged e).length).map fun t => (t, σ t)) := by
          simp only [pairCost, List.map_map]
          rfl
      _ ≤ _ := this
  · intro h σ hb hinj
    have hB := allMatchings_complete_cols _ _ h σ hb hinj
    have := hoptim _ hB
    calc ((List.range dets.length).map
          fun d => engineMatrix e dets (σ d) d).sum
        = pairCost (engineMatrix e dets)
            ((List.range dets.length).map fun d => (σ d, d)) := by
          simp only [pairCost, List.map_map]
          rfl
      _ ≤ _ := this
  · exact hfst.sublist (hsubl.map Prod.fst)
  · exact hsnd.sublist (hsubl.map Prod.snd)
  · intro t ht
    rw [processedTracks_getD e dets t ht]
    by_cases hm : t ∈ (acceptedPairs e dets).map Prod.fst
    · obtain ⟨p, _, _, hdet, _⟩ := processOne_matched_spec e dets t hm
      rw [hdet, List.length_append]
      simp
    · rw [(processOne_unmatched e dets t hm).2.1]
      omega
  · intro p hp hlt
    have hp1 := (hbounds p hp).1
    have hp2 := (hbounds p hp).2
    have hpnot : p ∉ acceptedPairs e dets := by
      unfold acceptedPairs
      rw [List.mem_filter]
      rintro ⟨_, hcond⟩
      rw [decide_eq_true_eq] at hcond
      exact absurd hcond (not_le.2 hlt)
    have hfstnot : p.1 ∉ (acceptedPairs e dets).map Prod.fst := by
      intro hmem
      obtain ⟨q, hq, hq1⟩ := List.mem_map.1 hmem
      have hqA : q ∈ engineAssignment e dets := hsubl.subset hq
      have : q = p := List.inj_on_of_nodup_map hfst hqA hp hq1
      exact hpnot (this ▸ hq)
    have hsndnot : p.2 ∉ (acceptedPairs e dets).map Prod.snd := by
      intro hmem
      obtain ⟨q, hq, hq2⟩ := List.mem_map.1 hmem
      have hqA : q ∈ engineAssignment e dets := hsubl.subset hq
      have : q = p := List.inj_on_of_nodup_map hsnd hqA hp hq2
      exact hpnot (this ▸ hq)
    constructor
    · obtain ⟨hage, hdet, hhits, _⟩ := processOne_unmatched e dets p.1 hfstnot
      rw [processedTracks_getD e dets p.1 hp1]
      exact ⟨hdet, hage, hhits⟩
    · have hd2 : p.2 ∈ unmatchedDets e dets := by
        unfold unmatchedDets
        rw [List.mem_filter]
        refine ⟨List.mem_range.2 hp2, ?_⟩
        simp only [Bool.not_eq_true', ← Bool.not_eq_true]
        intro hcontains
        exact hsndnot (List.mem_of_elem_eq_true hcontains)
      have hdmem : dets.getD p.2 defaultDetection ∈
          (unmatchedDets e dets).map fun d => dets.getD d defaultDetection :=
        List.mem_map_of_mem _ hd2
      obtain ⟨tr, htr, hle, heq⟩ :=
        mkNewTracks_exists _ e.next_track_id _ hdmem
      have htne : e.tracks ≠ [] := by
        intro hcontra
        apply hT
        unfold activeAged agedTracks
        rw [hcontra]
        rfl
      obtain ⟨hupd, _⟩ := update_tracks_nonempty e dets htne
      refine ⟨tr, ?_, hle, ?_, ?_, ?_⟩
      · rw [hupd, List.mem_filter]
        refine ⟨List.mem_append_right _ htr, ?_⟩
        rw [heq]
        rfl
      · rw [heq]
        rfl
      · rw [heq]
        rfl
      · rw [heq]
        rfl

/-- Witness for C1 on a one-track engine meeting one detection. -/
theorem c1_optimal_assignment_witness :
    (activeAged ((TrackingEngine.init 30 3 (3 / 10)).update [carDetection]).1 ≠ []) ∧
    (([carDetection] : List Detection) ≠ []) ∧
    ((engineAssignment ((TrackingEngine.init 30 3 (3 / 10)).update
      [carDetection]).1 [carDetection]).map Prod.fst).Nodup :=
  ⟨by decide, by decide,
    (c1_optimal_assignment ((TrackingEngine.init 30 3 (3 / 10)).update [carDetection]).1
      [carDetection] (by decide) (by decide)).1.1⟩

end CameraAnalytics
